import Mathlib

/-!
Verification of the Cognitive-Inference-Engine core against its
specification.  The Python modules under `src/engine` are shallowly
embedded: numeric values become rationals (`ℚ`), mutable state is passed
explicitly, and Python float NaN/infinity behaviour is modelled by a
dedicated `PFloat` type where a property depends on it.
-/

/-- Python `min(a, b)` on numbers: returns `b` when `b < a`, else `a`. -/
def pyMinQ (a b : ℚ) : ℚ := if b < a then b else a

/-- Python `max(a, b)` on numbers: returns `b` when `a < b`, else `a`. -/
def pyMaxQ (a b : ℚ) : ℚ := if a < b then b else a

theorem pyMinQ_eq_min (a b : ℚ) : pyMinQ a b = min a b := by
  unfold pyMinQ
  rcases lt_or_ge b a with h | h
  · rw [if_pos h, min_eq_right h.le]
  · rw [if_neg (not_lt.mpr h), min_eq_left h]

theorem pyMaxQ_eq_max (a b : ℚ) : pyMaxQ a b = max a b := by
  unfold pyMaxQ
  rcases lt_or_ge a b with h | h
  · rw [if_pos h, max_eq_right h.le]
  · rw [if_neg (not_lt.mpr h), max_eq_left h]

/-- Round-half-to-even of a rational to an integer, the rounding rule of
Python `round`. -/
def rhe (q : ℚ) : ℤ :=
  if q - ⌊q⌋ < 1/2 then ⌊q⌋
  else if 1/2 < q - ⌊q⌋ then ⌊q⌋ + 1
  else if 2 ∣ ⌊q⌋ then ⌊q⌋ else ⌊q⌋ + 1

/-- Python `round(q, n)` on rationals. -/
def pyRound (q : ℚ) (n : ℕ) : ℚ := (rhe (q * 10 ^ n) : ℚ) / 10 ^ n

theorem floor_le_rhe (q : ℚ) : ⌊q⌋ ≤ rhe q := by
  unfold rhe; split_ifs <;> omega

theorem rhe_le_floor_add_one (q : ℚ) : rhe q ≤ ⌊q⌋ + 1 := by
  unfold rhe; split_ifs <;> omega

theorem sub_half_le_rhe (q : ℚ) : q - 1/2 ≤ (rhe q : ℚ) := by
  have h1 : (⌊q⌋ : ℚ) ≤ q := Int.floor_le q
  have h2 : q < ⌊q⌋ + 1 := Int.lt_floor_add_one q
  unfold rhe
  split_ifs with ha hb hc <;> push_cast <;> linarith

theorem rhe_le_add_half (q : ℚ) : (rhe q : ℚ) ≤ q + 1/2 := by
  have h1 : (⌊q⌋ : ℚ) ≤ q := Int.floor_le q
  unfold rhe
  split_ifs with ha hb hc <;> push_cast <;> linarith

theorem abs_rhe_sub (q : ℚ) : |(rhe q : ℚ) - q| ≤ 1/2 := by
  rw [abs_le]
  constructor
  · have := sub_half_le_rhe q; linarith
  · have := rhe_le_add_half q; linarith

theorem rhe_intCast (n : ℤ) : rhe (n : ℚ) = n := by
  unfold rhe
  rw [Int.floor_intCast]
  have : (n : ℚ) - n = 0 := by ring
  rw [this]
  norm_num

theorem rhe_le_of_le_int {q : ℚ} {n : ℤ} (h : q ≤ (n : ℚ)) : rhe q ≤ n := by
  have hfl : ⌊q⌋ ≤ n := by
    have := Int.floor_le_floor h
    simpa using this
  have hflq : (⌊q⌋ : ℚ) ≤ q := Int.floor_le q
  unfold rhe
  split_ifs with ha hb hc
  · exact hfl
  · have hlt : (⌊q⌋ : ℚ) < q := by linarith
    have : ⌊q⌋ < n := by
      have : (⌊q⌋ : ℚ) < (n : ℚ) := lt_of_lt_of_le hlt h
      exact_mod_cast this
    omega
  · exact hfl
  · have hlt : (⌊q⌋ : ℚ) < q := by
      have hge : 1/2 ≤ q - ⌊q⌋ := le_of_not_lt ha
      linarith
    have : ⌊q⌋ < n := by
      have : (⌊q⌋ : ℚ) < (n : ℚ) := lt_of_lt_of_le hlt h
      exact_mod_cast this
    omega

theorem int_le_rhe {q : ℚ} {n : ℤ} (h : (n : ℚ) ≤ q) : n ≤ rhe q := by
  have : n ≤ ⌊q⌋ := Int.le_floor.mpr h
  exact le_trans this (floor_le_rhe q)

theorem rhe_mono {a b : ℚ} (hab : a ≤ b) : rhe a ≤ rhe b := by
  have hf : ⌊a⌋ ≤ ⌊b⌋ := Int.floor_le_floor hab
  rcases lt_or_eq_of_le hf with hlt | heq
  · calc rhe a ≤ ⌊a⌋ + 1 := rhe_le_floor_add_one a
      _ ≤ ⌊b⌋ := by omega
      _ ≤ rhe b := floor_le_rhe b
  · have hr : a - (⌊a⌋ : ℚ) ≤ b - (⌊a⌋ : ℚ) := by linarith
    unfold rhe
    rw [← heq]
    split_ifs <;> first | omega | linarith

theorem pyRound_nonneg {q : ℚ} (n : ℕ) (h : 0 ≤ q) : 0 ≤ pyRound q n := by
  unfold pyRound
  apply div_nonneg _ (by positivity)
  have : (0 : ℤ) ≤ rhe (q * 10 ^ n) := by
    apply int_le_rhe
    push_cast
    positivity
  exact_mod_cast this

theorem pyRound_le_one {q : ℚ} (n : ℕ) (h : q ≤ 1) : pyRound q n ≤ 1 := by
  unfold pyRound
  rw [div_le_one (by positivity)]
  have : rhe (q * 10 ^ n) ≤ (10 : ℤ) ^ n := by
    apply rhe_le_of_le_int
    push_cast
    nlinarith [pow_pos (show (0:ℚ) < 10 by norm_num) n]
  calc ((rhe (q * 10 ^ n) : ℤ) : ℚ) ≤ (((10 : ℤ) ^ n : ℤ) : ℚ) := by exact_mod_cast this
    _ = 10 ^ n := by push_cast; ring

theorem pyRound_mono {a b : ℚ} (n : ℕ) (hab : a ≤ b) : pyRound a n ≤ pyRound b n := by
  unfold pyRound
  apply div_le_div_of_nonneg_right _ (by positivity)
  · exact_mod_cast rhe_mono (by nlinarith [pow_pos (show (0:ℚ) < 10 by norm_num) n])

theorem abs_pyRound_sub (q : ℚ) (n : ℕ) : |pyRound q n - q| ≤ 1 / (2 * 10 ^ n) := by
  unfold pyRound
  have hpow : (0 : ℚ) < 10 ^ n := by positivity
  have key : |(rhe (q * 10 ^ n) : ℚ) - q * 10 ^ n| ≤ 1/2 := abs_rhe_sub (q * 10 ^ n)
  have heq : (rhe (q * 10 ^ n) : ℚ) / 10 ^ n - q
      = ((rhe (q * 10 ^ n) : ℚ) - q * 10 ^ n) / 10 ^ n := by
    field_simp
    ring
  rw [heq, abs_div, abs_of_pos hpow, div_le_div_iff₀ hpow (by positivity)]
  nlinarith [key, hpow]

theorem pyRound_zero (n : ℕ) : pyRound 0 n = 0 := by
  unfold pyRound
  rw [zero_mul]
  have : rhe 0 = (0 : ℤ) := by simpa using rhe_intCast 0
  rw [this]
  norm_num

/-!
Load estimator (src/engine/inference/load_estimator.py) over rationals.
The estimator's mutable smoothing history is passed explicitly.
-/

/-- SignalFeatures (src/engine/inference/signal_processor.py).  The
timestamp field is omitted: the estimator and classifier never read it. -/
structure SignalFeatures where
  tab_switch_rate : ℚ := 0
  compile_error_rate : ℚ := 0
  window_change_rate : ℚ := 0
  typing_burst_score : ℚ := 0
  idle_fraction : ℚ := 0
  scroll_velocity_norm : ℚ := 0
  session_duration_min : ℚ := 0
  task_switch_entropy : ℚ := 0
deriving DecidableEq

/-- Weighted terms of `_weighted(features, _INTRINSIC_WEIGHTS)`:
`compile_error_rate` is first capped as `min(value / 5.0, 1.0)`. -/
def intrinsicTerms (f : SignalFeatures) : List (ℚ × ℚ) :=
  [(0.40, pyMinQ (f.compile_error_rate / 5) 1),
   (0.35, f.typing_burst_score),
   (0.25, f.scroll_velocity_norm)]

/-- Weighted terms of `_weighted(features, _EXTRANEOUS_WEIGHTS)`:
`tab_switch_rate` capped at 10/min, `window_change_rate` at 15/min. -/
def extraneousTerms (f : SignalFeatures) : List (ℚ × ℚ) :=
  [(0.45, pyMinQ (f.tab_switch_rate / 10) 1),
   (0.30, pyMinQ (f.window_change_rate / 15) 1),
   (0.25, f.task_switch_entropy)]

/-- Weighted terms of `_weighted(features, _GERMANE_WEIGHTS)`:
`session_duration_min` capped at 120 min; idle has negative weight. -/
def germaneTerms (f : SignalFeatures) : List (ℚ × ℚ) :=
  [(-0.60, f.idle_fraction),
   (0.40, pyMinQ (f.session_duration_min / 120) 1)]

/-- Core of `_weighted` (load_estimator.py lines 50-68):
`max(0.0, min(Σ wᵢ·xᵢ / Σ |wᵢ|, 1.0))`. -/
def weightedScore (terms : List (ℚ × ℚ)) : ℚ :=
  let total := (terms.map (fun t => |t.1|)).sum
  let s := (terms.map (fun t => t.1 * t.2)).sum
  pyMaxQ 0 (pyMinQ (s / total) 1)

/-- LoadEstimate (load_estimator.py). -/
structure LoadEstimate where
  score : ℚ
  intrinsic : ℚ
  extraneous : ℚ
  germane : ℚ
  confidence : ℚ
deriving DecidableEq

/-- The clamped raw combination `max(0.0, min(0.62·e + 0.28·i + 0.10·g, 1.0))`. -/
def rawScore (f : SignalFeatures) : ℚ :=
  pyMaxQ 0 (pyMinQ (0.62 * weightedScore (extraneousTerms f)
    + 0.28 * weightedScore (intrinsicTerms f)
    + 0.10 * weightedScore (germaneTerms f)) 1)

/-- EMA smoothing step of `estimate`: when the history is non-empty the new
score is `α·raw + (1 − α)·history[-1]` with `α = 0.3`. -/
def smoothedScore (hist : List ℚ) (f : SignalFeatures) : ℚ :=
  match hist.getLast? with
  | some last => 0.3 * rawScore f + (1 - 0.3) * last
  | none => rawScore f

/-- History update of `estimate`: append, then `pop(0)` once when the
length exceeds `history_size`. -/
def pushHistory (histSize : ℕ) (hist : List ℚ) (s : ℚ) : List ℚ :=
  let h := hist ++ [s]
  if histSize < h.length then h.drop 1 else h

/-- LoadEstimator.estimate (load_estimator.py lines 78-103).  Returns the
estimate together with the updated smoothing history. -/
def estimate (histSize : ℕ) (hist : List ℚ) (f : SignalFeatures) :
    LoadEstimate × List ℚ :=
  let s := smoothedScore hist f
  let hist2 := pushHistory histSize hist s
  let conf := pyMinQ ((hist2.length : ℚ) / (histSize : ℚ)) 1
  ({ score := pyRound s 4
     intrinsic := pyRound (weightedScore (intrinsicTerms f)) 4
     extraneous := pyRound (weightedScore (extraneousTerms f)) 4
     germane := pyRound (weightedScore (germaneTerms f)) 4
     confidence := pyRound conf 4 }, hist2)

/-- CognitiveContext enumeration (context_classifier.py). -/
inductive CognitiveContext
  | deep_focus
  | shallow_work
  | stuck
  | fatigue
  | recovering
  | unknown
deriving DecidableEq

/-- String value of each enum member. -/
def CognitiveContext.value : CognitiveContext → String
  | .deep_focus => "deep_focus"
  | .shallow_work => "shallow_work"
  | .stuck => "stuck"
  | .fatigue => "fatigue"
  | .recovering => "recovering"
  | .unknown => "unknown"

/-- The closed set of context strings. -/
def contextValues : List String :=
  ["deep_focus", "shallow_work", "stuck", "fatigue", "recovering", "unknown"]

/-- ContextClassifier.classify rule ladder (context_classifier.py),
first match wins. -/
def classify (f : SignalFeatures) (load : ℚ) : CognitiveContext :=
  if 2 < f.compile_error_rate ∧ 5 < f.tab_switch_rate then .stuck
  else if 0.8 < f.task_switch_entropy ∧ 0.7 < load then .stuck
  else if 0.85 < load ∧ 90 < f.session_duration_min then .fatigue
  else if 0.4 < f.idle_fraction ∧ 60 < f.session_duration_min then .fatigue
  else if f.tab_switch_rate < 1.5 ∧ f.window_change_rate < 2
      ∧ f.task_switch_entropy < 0.3 ∧ 0.3 < load ∧ load < 0.75 then .deep_focus
  else if 0.2 < f.idle_fraction ∧ load < 0.4 then .recovering
  else if 3 < f.tab_switch_rate ∨ 0.5 < f.task_switch_entropy then .shallow_work
  else .unknown

theorem value_mem_contextValues (c : CognitiveContext) : c.value ∈ contextValues := by
  cases c <;> simp [CognitiveContext.value, contextValues]

/-- TimelineEntry (src/engine/telemetry/timeline.py). -/
structure TimelineEntry where
  id : Option ℤ := none
  timestamp : ℚ
  source : String
  event_type : String
  load_score : ℚ
  context : String
  metadata_json : String := "{}"
deriving DecidableEq

/-- The timeline entry persisted by TelemetryAggregator.tick
(aggregator.py lines 56-91) on the rule-based (v1) estimator path.  The
JSON metadata payload is opaque to every claim and kept as a fixed
string. -/
def tickEntry (now : ℚ) (histSize : ℕ) (hist : List ℚ) (f : SignalFeatures) :
    TimelineEntry :=
  let est := (estimate histSize hist f).1
  { id := none
    timestamp := now
    source := "engine"
    event_type := "inference_tick"
    load_score := est.score
    context := (classify f est.score).value
    metadata_json := "{}" }

theorem getLast?_mem_self {α : Type} {l : List α} {a : α}
    (h : l.getLast? = some a) : a ∈ l := by
  have hx : a ∈ l.getLast? := by rw [h]; rfl
  rcases List.mem_getLast?_eq_getLast hx with ⟨hne, heq⟩
  rw [heq]
  exact List.getLast_mem hne

theorem clamp01_mem (x : ℚ) : 0 ≤ pyMaxQ 0 (pyMinQ x 1) ∧ pyMaxQ 0 (pyMinQ x 1) ≤ 1 := by
  rw [pyMaxQ_eq_max, pyMinQ_eq_min]
  refine ⟨le_max_left 0 _, max_le (by norm_num) (min_le_right x 1)⟩

theorem weightedScore_mem (terms : List (ℚ × ℚ)) :
    0 ≤ weightedScore terms ∧ weightedScore terms ≤ 1 := by
  unfold weightedScore
  exact clamp01_mem _

theorem rawScore_mem (f : SignalFeatures) : 0 ≤ rawScore f ∧ rawScore f ≤ 1 := by
  unfold rawScore
  exact clamp01_mem _

theorem smoothedScore_mem (hist : List ℚ) (f : SignalFeatures)
    (hinv : ∀ x ∈ hist, 0 ≤ x ∧ x ≤ 1) :
    0 ≤ smoothedScore hist f ∧ smoothedScore hist f ≤ 1 := by
  unfold smoothedScore
  cases hl : hist.getLast? with
  | none => exact rawScore_mem f
  | some last =>
    have hmem : last ∈ hist := getLast?_mem_self hl
    obtain ⟨h0, h1⟩ := hinv last hmem
    obtain ⟨r0, r1⟩ := rawScore_mem f
    constructor <;> simp only [] <;> nlinarith

theorem pushHistory_sub (histSize : ℕ) (hist : List ℚ) (s : ℚ) :
    ∀ x ∈ pushHistory histSize hist s, x ∈ hist ∨ x = s := by
  intro x hx
  unfold pushHistory at hx
  simp only [] at hx
  split at hx
  · have := (List.drop_subset 1 (hist ++ [s])) hx
    rcases List.mem_append.mp this with h | h
    · exact Or.inl h
    · exact Or.inr (by simpa using h)
  · rcases List.mem_append.mp hx with h | h
    · exact Or.inl h
    · exact Or.inr (by simpa using h)

/-- C1: `LoadEstimator.estimate` returns a score in [0, 1] and breakdown
components in [0, 1]; the persisted inference tick carries that score as
`load_score` (so `0 ≤ load_score ≤ 1`) and a context string drawn from the
CognitiveContext enumeration.  The hypothesis is the estimator's own state
invariant — every previously smoothed score lies in [0, 1] — and the final
conjunct shows the invariant is preserved by the call. -/
theorem C1_estimate_and_tick_bounds (histSize : ℕ) (hist : List ℚ)
    (f : SignalFeatures) (now : ℚ)
    (hinv : ∀ x ∈ hist, 0 ≤ x ∧ x ≤ 1) :
    (0 ≤ (estimate histSize hist f).1.score ∧ (estimate histSize hist f).1.score ≤ 1) ∧
    (0 ≤ (estimate histSize hist f).1.intrinsic ∧ (estimate histSize hist f).1.intrinsic ≤ 1) ∧
    (0 ≤ (estimate histSize hist f).1.extraneous ∧ (estimate histSize hist f).1.extraneous ≤ 1) ∧
    (0 ≤ (estimate histSize hist f).1.germane ∧ (estimate histSize hist f).1.germane ≤ 1) ∧
    (0 ≤ (tickEntry now histSize hist f).load_score ∧
      (tickEntry now histSize hist f).load_score ≤ 1) ∧
    (tickEntry now histSize hist f).context ∈ contextValues ∧
    (∀ x ∈ (estimate histSize hist f).2, 0 ≤ x ∧ x ≤ 1) := by
  obtain ⟨hs0, hs1⟩ := smoothedScore_mem hist f hinv
  have hscore : (estimate histSize hist f).1.score = pyRound (smoothedScore hist f) 4 := rfl
  have hsc : 0 ≤ (estimate histSize hist f).1.score ∧ (estimate histSize hist f).1.score ≤ 1 := by
    rw [hscore]
    exact ⟨pyRound_nonneg 4 hs0, pyRound_le_one 4 hs1⟩
  refine ⟨hsc, ?_, ?_, ?_, ?_, ?_, ?_⟩
  · obtain ⟨h0, h1⟩ := weightedScore_mem (intrinsicTerms f)
    exact ⟨pyRound_nonneg 4 h0, pyRound_le_one 4 h1⟩
  · obtain ⟨h0, h1⟩ := weightedScore_mem (extraneousTerms f)
    exact ⟨pyRound_nonneg 4 h0, pyRound_le_one 4 h1⟩
  · obtain ⟨h0, h1⟩ := weightedScore_mem (germaneTerms f)
    exact ⟨pyRound_nonneg 4 h0, pyRound_le_one 4 h1⟩
  · exact hsc
  · exact value_mem_contextValues _
  · intro x hx
    have hsub : x ∈ hist ∨ x = smoothedScore hist f :=
      pushHistory_sub histSize hist (smoothedScore hist f) x hx
    rcases hsub with h | h
    · exact hinv x h
    · rw [h]; exact ⟨hs0, hs1⟩

/-- Witness for C1 at a concrete input (empty history, zero features). -/
theorem C1_witness :
    (0 ≤ (estimate 5 [] {}).1.score ∧ (estimate 5 [] {}).1.score ≤ 1) ∧
    (0 ≤ (estimate 5 [] {}).1.intrinsic ∧ (estimate 5 [] {}).1.intrinsic ≤ 1) ∧
    (0 ≤ (estimate 5 [] {}).1.extraneous ∧ (estimate 5 [] {}).1.extraneous ≤ 1) ∧
    (0 ≤ (estimate 5 [] {}).1.germane ∧ (estimate 5 [] {}).1.germane ≤ 1) ∧
    (0 ≤ (tickEntry 0 5 [] {}).load_score ∧ (tickEntry 0 5 [] {}).load_score ≤ 1) ∧
    (tickEntry 0 5 [] {}).context ∈ contextValues ∧
    (∀ x ∈ (estimate 5 [] {}).2, 0 ≤ x ∧ x ≤ 1) :=
  C1_estimate_and_tick_bounds 5 [] {} 0 (by intro x hx; simp at hx)

theorem pushHistory_getLast (histSize : ℕ) (hist : List ℚ) (s : ℚ)
    (hpos : 0 < histSize) :
    (pushHistory histSize hist s).getLast? = some s := by
  unfold pushHistory
  simp only []
  split
  · rename_i hlen
    cases hist with
    | nil => simp at hlen; omega
    | cons c t =>
      have : ((c :: t) ++ [s]).drop 1 = t ++ [s] := by simp
      rw [this, List.getLast?_concat]
  · rw [List.getLast?_concat]

/-- MLLoadEstimator._predict_ml (ml_estimator.py lines 103-133).  The
learned model is an external artifact; its raw prediction on the
normalised feature row enters as the `modelOut` parameter.  History size
is fixed at 5 in MLLoadEstimator. -/
def predictML (modelOut : ℚ) (hist : List ℚ) (f : SignalFeatures) :
    LoadEstimate × List ℚ :=
  let raw0 := pyMaxQ 0 (pyMinQ modelOut 1)
  let raw := match hist.getLast? with
    | some last => 0.3 * raw0 + (1 - 0.3) * last
    | none => raw0
  let hist2 := pushHistory 5 hist raw
  let tab_norm := pyMinQ (f.tab_switch_rate / 10) 1
  let err_norm := pyMinQ (f.compile_error_rate / 5) 1
  ({ score := pyRound raw 4
     intrinsic := pyRound (0.6 * err_norm + 0.4 * f.typing_burst_score) 4
     extraneous := pyRound (0.6 * tab_norm + 0.4 * f.task_switch_entropy) 4
     germane := pyRound (pyMaxQ 0 (pyMinQ (f.session_duration_min / 120 - f.idle_fraction) 1)) 4
     confidence := pyMinQ ((hist2.length : ℚ) / 5) 1 }, hist2)

/-- Every `pyRound _ 4` value is an integer multiple of `10⁻⁴`. -/
theorem pyRound_quantized (q : ℚ) : ∃ k : ℤ, pyRound q 4 = (k : ℚ) / 10 ^ 4 :=
  ⟨rhe (q * 10 ^ 4), rfl⟩

/-- A fifth with numerator at most 5, clamped at 1, is a multiple of 10⁻⁴. -/
theorem fifth_quantized (m : ℕ) :
    ∃ k : ℤ, pyMinQ ((m : ℚ) / 5) 1 = (k : ℚ) / 10 ^ 4 := by
  rw [pyMinQ_eq_min]
  rcases le_or_lt 5 m with h | h
  · refine ⟨10 ^ 4, ?_⟩
    have h5 : (1 : ℚ) ≤ (m : ℚ) / 5 := by
      rw [le_div_iff₀ (by norm_num)]
      exact_mod_cast by omega
    rw [min_eq_right h5]
    norm_num
  · refine ⟨2000 * m, ?_⟩
    have h5 : (m : ℚ) / 5 ≤ 1 := by
      rw [div_le_one (by norm_num)]
      exact_mod_cast by omega
    rw [min_eq_left h5]
    push_cast
    ring

/-- C10: every numeric field of the LoadEstimate returned by the
estimator — score, intrinsic, extraneous, germane, confidence — is a
multiple of 10⁻⁴ (the v1 path rounds all five to 4 decimals; the ML path
rounds four and returns a confidence k/5 which is already quantized),
while the smoothing history stores the unrounded smoothed score, which is
exactly what the next EMA step reads. -/
theorem C10_rounding_and_history (histSize : ℕ) (hist mlHist : List ℚ)
    (f : SignalFeatures) (modelOut : ℚ) (hpos : 0 < histSize) :
    (∃ k : ℤ, (estimate histSize hist f).1.score = (k : ℚ) / 10 ^ 4) ∧
    (∃ k : ℤ, (estimate histSize hist f).1.intrinsic = (k : ℚ) / 10 ^ 4) ∧
    (∃ k : ℤ, (estimate histSize hist f).1.extraneous = (k : ℚ) / 10 ^ 4) ∧
    (∃ k : ℤ, (estimate histSize hist f).1.germane = (k : ℚ) / 10 ^ 4) ∧
    (∃ k : ℤ, (estimate histSize hist f).1.confidence = (k : ℚ) / 10 ^ 4) ∧
    (estimate histSize hist f).1.score = pyRound (smoothedScore hist f) 4 ∧
    (estimate histSize hist f).2.getLast? = some (smoothedScore hist f) ∧
    (∃ k : ℤ, (predictML modelOut mlHist f).1.score = (k : ℚ) / 10 ^ 4) ∧
    (∃ k : ℤ, (predictML modelOut mlHist f).1.intrinsic = (k : ℚ) / 10 ^ 4) ∧
    (∃ k : ℤ, (predictML modelOut mlHist f).1.extraneous = (k : ℚ) / 10 ^ 4) ∧
    (∃ k : ℤ, (predictML modelOut mlHist f).1.germane = (k : ℚ) / 10 ^ 4) ∧
    (∃ k : ℤ, (predictML modelOut mlHist f).1.confidence = (k : ℚ) / 10 ^ 4) := by
  refine ⟨pyRound_quantized _, pyRound_quantized _, pyRound_quantized _,
    pyRound_quantized _, pyRound_quantized _, rfl,
    pushHistory_getLast histSize hist _ hpos,
    pyRound_quantized _, pyRound_quantized _, pyRound_quantized _,
    pyRound_quantized _, fifth_quantized _⟩

/-- Witness for C10 at a concrete input. -/
theorem C10_witness :
    (∃ k : ℤ, (estimate 5 [] {}).1.score = (k : ℚ) / 10 ^ 4) ∧
    (∃ k : ℤ, (estimate 5 [] {}).1.intrinsic = (k : ℚ) / 10 ^ 4) ∧
    (∃ k : ℤ, (estimate 5 [] {}).1.extraneous = (k : ℚ) / 10 ^ 4) ∧
    (∃ k : ℤ, (estimate 5 [] {}).1.germane = (k : ℚ) / 10 ^ 4) ∧
    (∃ k : ℤ, (estimate 5 [] {}).1.confidence = (k : ℚ) / 10 ^ 4) ∧
    (estimate 5 [] {}).1.score = pyRound (smoothedScore [] {}) 4 ∧
    (estimate 5 [] {}).2.getLast? = some (smoothedScore [] {}) ∧
    (∃ k : ℤ, (predictML (1/2) [] {}).1.score = (k : ℚ) / 10 ^ 4) ∧
    (∃ k : ℤ, (predictML (1/2) [] {}).1.intrinsic = (k : ℚ) / 10 ^ 4) ∧
    (∃ k : ℤ, (predictML (1/2) [] {}).1.extraneous = (k : ℚ) / 10 ^ 4) ∧
    (∃ k : ℤ, (predictML (1/2) [] {}).1.germane = (k : ℚ) / 10 ^ 4) ∧
    (∃ k : ℤ, (predictML (1/2) [] {}).1.confidence = (k : ℚ) / 10 ^ 4) :=
  C10_rounding_and_history 5 [] [] {} (1/2) (by norm_num)

/-- Iterated calls of `estimate` on the same features, threading only the
smoothing history. -/
def estimateIter (histSize : ℕ) (f : SignalFeatures) : ℕ → List ℚ → List ℚ
  | 0, hist => hist
  | n + 1, hist => estimateIter histSize f n (estimate histSize hist f).2

theorem estimateIter_getLast (histSize : ℕ) (f : SignalFeatures)
    (hpos : 0 < histSize) :
    ∀ (n : ℕ) (hist : List ℚ) (s0 : ℚ), hist.getLast? = some s0 →
      ∃ sn : ℚ, (estimateIter histSize f n hist).getLast? = some sn ∧
        sn - rawScore f = (7/10) ^ n * (s0 - rawScore f) := by
  intro n
  induction n with
  | zero =>
    intro hist s0 hl
    exact ⟨s0, hl, by ring⟩
  | succ m ih =>
    intro hist s0 hl
    have hstep : (estimate histSize hist f).2.getLast? = some (smoothedScore hist f) :=
      pushHistory_getLast histSize hist _ hpos
    have hsm : smoothedScore hist f = 0.3 * rawScore f + (1 - 0.3) * s0 := by
      unfold smoothedScore
      rw [hl]
    obtain ⟨sn, hsn, hgeo⟩ := ih (estimate histSize hist f).2 (smoothedScore hist f) hstep
    refine ⟨sn, hsn, ?_⟩
    rw [hgeo, hsm]
    ring

/-- C8: with the features held fixed (hence a fixed clamped raw score `r`),
each call produces `0.3·r + 0.7·previous`, and after `n` calls the last
smoothed score `sₙ` satisfies `|sₙ − r| = 0.7ⁿ·|s₀ − r|`, where `s₀` is the
smoothed score held in the history before the run. -/
theorem C8_ema_geometric (histSize : ℕ) (f : SignalFeatures) (hist : List ℚ)
    (s0 : ℚ) (n : ℕ) (hpos : 0 < histSize) (hl : hist.getLast? = some s0) :
    (estimate histSize hist f).2.getLast? = some (0.3 * rawScore f + (1 - 0.3) * s0) ∧
    ∃ sn : ℚ, (estimateIter histSize f n hist).getLast? = some sn ∧
      sn - rawScore f = (7/10) ^ n * (s0 - rawScore f) ∧
      |sn - rawScore f| = (7/10) ^ n * |s0 - rawScore f| := by
  constructor
  · have hstep : (estimate histSize hist f).2.getLast? = some (smoothedScore hist f) :=
      pushHistory_getLast histSize hist _ hpos
    rw [hstep]
    unfold smoothedScore
    rw [hl]
  · obtain ⟨sn, hsn, hgeo⟩ := estimateIter_getLast histSize f hpos n hist s0 hl
    refine ⟨sn, hsn, hgeo, ?_⟩
    rw [hgeo, abs_mul, abs_pow]
    have : |(7:ℚ)/10| = 7/10 := by norm_num
    rw [this]

/-- Witness for C8: one smoothing step from history [1/2] on zero features. -/
theorem C8_witness :
    (estimate 5 [(1:ℚ)/2] {}).2.getLast? = some (0.3 * rawScore {} + (1 - 0.3) * (1/2)) ∧
    ∃ sn : ℚ, (estimateIter 5 {} 1 [(1:ℚ)/2]).getLast? = some sn ∧
      sn - rawScore {} = (7/10) ^ 1 * (1/2 - rawScore {}) ∧
      |sn - rawScore {}| = (7/10) ^ 1 * |1/2 - rawScore {}| :=
  C8_ema_geometric 5 {} [(1:ℚ)/2] (1/2) 1 (by norm_num) rfl

/-!
Python float semantics.  Claim C2 is about NaN/infinity handling, which the
rational model cannot express; `PFloat` models IEEE-754 double values as
exact rationals extended with `nan` and the two infinities, with Python's
comparison, arithmetic, `min` and `max` semantics.
-/

/-- A Python float: a finite value (kept exact), NaN, +inf or -inf. -/
inductive PFloat
  | fin (q : ℚ)
  | nan
  | inf
  | ninf
deriving DecidableEq

/-- Python `<` on floats; every comparison involving NaN is false. -/
def pyLt : PFloat → PFloat → Bool
  | .fin a, .fin b => decide (a < b)
  | .fin _, .inf => true
  | .ninf, .fin _ => true
  | .ninf, .inf => true
  | _, _ => false

/-- Python `+` on floats; NaN is absorbing, `inf + (-inf)` is NaN. -/
def pyAdd : PFloat → PFloat → PFloat
  | .fin a, .fin b => .fin (a + b)
  | .fin _, .inf => .inf
  | .fin _, .ninf => .ninf
  | .inf, .fin _ => .inf
  | .inf, .inf => .inf
  | .inf, .ninf => .nan
  | .ninf, .fin _ => .ninf
  | .ninf, .inf => .nan
  | .ninf, .ninf => .ninf
  | _, _ => .nan

/-- Python `*` on floats; NaN is absorbing, `0 * inf` is NaN. -/
def pyMul : PFloat → PFloat → PFloat
  | .fin a, .fin b => .fin (a * b)
  | .fin a, .inf => if a = 0 then .nan else if 0 < a then .inf else .ninf
  | .fin a, .ninf => if a = 0 then .nan else if 0 < a then .ninf else .inf
  | .inf, .fin b => if b = 0 then .nan else if 0 < b then .inf else .ninf
  | .ninf, .fin b => if b = 0 then .nan else if 0 < b then .ninf else .inf
  | .inf, .inf => .inf
  | .inf, .ninf => .ninf
  | .ninf, .inf => .ninf
  | .ninf, .ninf => .inf
  | _, _ => .nan

/-- Division of a float by a positive finite constant (the only division
`_weighted` performs: feature caps and `total_weight` are positive
program constants). -/
def pyDivC (x : PFloat) (c : ℚ) : PFloat :=
  match x with
  | .fin a => .fin (a / c)
  | .nan => .nan
  | .inf => .inf
  | .ninf => .ninf

/-- Python `min(a, b)`: `b` if `b < a` else `a` (so `min(nan, x) = nan` and
`min(x, nan) = x`). -/
def pyMinF (a b : PFloat) : PFloat := if pyLt b a then b else a

/-- Python `max(a, b)`: `b` if `a < b` else `a` (so `max(0.0, nan) = 0.0`). -/
def pyMaxF (a b : PFloat) : PFloat := if pyLt a b then b else a

/-- SignalFeatures whose fields may hold NaN or infinities. -/
structure PFeatures where
  tab_switch_rate : PFloat := .fin 0
  compile_error_rate : PFloat := .fin 0
  window_change_rate : PFloat := .fin 0
  typing_burst_score : PFloat := .fin 0
  idle_fraction : PFloat := .fin 0
  scroll_velocity_norm : PFloat := .fin 0
  session_duration_min : PFloat := .fin 0
  task_switch_entropy : PFloat := .fin 0
deriving DecidableEq

/-- The `min(value / cap, 1.0)` normalisation of `_weighted` on floats. -/
def capF (v : PFloat) (cap : ℚ) : PFloat := pyMinF (pyDivC v cap) (.fin 1)

def intrinsicTermsF (f : PFeatures) : List (ℚ × PFloat) :=
  [(0.40, capF f.compile_error_rate 5),
   (0.35, f.typing_burst_score),
   (0.25, f.scroll_velocity_norm)]

def extraneousTermsF (f : PFeatures) : List (ℚ × PFloat) :=
  [(0.45, capF f.tab_switch_rate 10),
   (0.30, capF f.window_change_rate 15),
   (0.25, f.task_switch_entropy)]

def germaneTermsF (f : PFeatures) : List (ℚ × PFloat) :=
  [(-0.60, f.idle_fraction),
   (0.40, capF f.session_duration_min 120)]

/-- `_weighted` on floats: `score` accumulates `weight * value` starting
from `0.0`, then `max(0.0, min(score / total_weight, 1.0))`. -/
def weightedF (terms : List (ℚ × PFloat)) : PFloat :=
  let total := (terms.map (fun t => |t.1|)).sum
  let s := terms.foldl (fun acc t => pyAdd acc (pyMul (.fin t.1) t.2)) (.fin 0)
  pyMaxF (.fin 0) (pyMinF (pyDivC s total) (.fin 1))

/-- Finite part of a PFloat.  `weightedF` always ends in the
`max(0.0, min(·, 1.0))` clamp, which maps NaN to `0.0` and never returns
an infinity, so the default branch is unreachable on its outputs. -/
def finPart : PFloat → ℚ
  | .fin q => q
  | _ => 0

/-- LoadEstimator.estimate on a float feature vector: the three component
scores (always finite after the clamp) are combined, clamped and smoothed
exactly as in the rational model. -/
def estimateF (histSize : ℕ) (hist : List ℚ) (f : PFeatures) :
    LoadEstimate × List ℚ :=
  let i := finPart (weightedF (intrinsicTermsF f))
  let e := finPart (weightedF (extraneousTermsF f))
  let g := finPart (weightedF (germaneTermsF f))
  let raw := pyMaxQ 0 (pyMinQ (0.62 * e + 0.28 * i + 0.10 * g) 1)
  let s := match hist.getLast? with
    | some last => 0.3 * raw + (1 - 0.3) * last
    | none => raw
  let hist2 := pushHistory histSize hist s
  let conf := pyMinQ ((hist2.length : ℚ) / (histSize : ℚ)) 1
  ({ score := pyRound s 4
     intrinsic := pyRound i 4
     extraneous := pyRound e 4
     germane := pyRound g 4
     confidence := pyRound conf 4 }, hist2)

/-- A feature vector whose `tab_switch_rate` is NaN while
`window_change_rate` is 15 (a maximal finite rate). -/
def malformedVec : PFeatures := { tab_switch_rate := .nan, window_change_rate := .fin 15 }

/-- `malformedVec` with its NaN field replaced by 0.0. -/
def zeroedVec : PFeatures := { tab_switch_rate := .fin 0, window_change_rate := .fin 15 }

theorem pyAdd_nan_left (x : PFloat) : pyAdd .nan x = .nan := by
  cases x <;> rfl

theorem weightedF_nan_tab {f : PFeatures} (hnan : f.tab_switch_rate = .nan) :
    weightedF (extraneousTermsF f) = .fin 0 := by
  unfold weightedF extraneousTermsF
  rw [hnan]
  simp only [List.foldl, List.map]
  have h1 : pyMul (.fin 0.45) (capF .nan 10) = .nan := rfl
  rw [h1]
  have h2 : pyAdd (.fin 0) .nan = .nan := rfl
  rw [h2, pyAdd_nan_left, pyAdd_nan_left]
  rfl

theorem estimateF_extraneous_eq (histSize : ℕ) (hist : List ℚ) (f : PFeatures) :
    (estimateF histSize hist f).1.extraneous
      = pyRound (finPart (weightedF (extraneousTermsF f))) 4 := rfl

theorem weightedF_zeroedVec : weightedF (extraneousTermsF zeroedVec) = .fin (3/10) := by
  unfold weightedF extraneousTermsF zeroedVec capF
  norm_num [pyMinF, pyMaxF, pyDivC, pyLt, pyAdd, pyMul]
  rw [show |(9:ℚ)/20| + (|(3:ℚ)/10| + |(1:ℚ)/4|) = 1 from by
    rw [abs_of_pos (show (0:ℚ) < 9/20 by norm_num),
      abs_of_pos (show (0:ℚ) < 3/10 by norm_num),
      abs_of_pos (show (0:ℚ) < 1/4 by norm_num)]
    norm_num]
  norm_num

theorem pyRound_three_tenths : pyRound (3/10) 4 = 3/10 := by
  unfold pyRound
  have h1 : (3/10 : ℚ) * 10 ^ 4 = ((3000 : ℤ) : ℚ) := by norm_num
  rw [h1, rhe_intCast]
  norm_num

/-- C2 fails on the code: `estimate` on a vector with a NaN
`tab_switch_rate` does not return the estimate of the zero-replaced
vector — the reported extraneous component is 0.0 on the NaN vector
versus 0.3 after zero-replacement. -/
theorem C2_counterexample : estimateF 5 [] malformedVec ≠ estimateF 5 [] zeroedVec := by
  intro h
  have h1 : (estimateF 5 [] malformedVec).1.extraneous = 0 := by
    rw [estimateF_extraneous_eq, weightedF_nan_tab rfl]
    exact pyRound_zero 4
  have h2 : (estimateF 5 [] zeroedVec).1.extraneous = 3/10 := by
    rw [estimateF_extraneous_eq, weightedF_zeroedVec]
    exact pyRound_three_tenths
  rw [h, h2] at h1
  norm_num at h1

/-- Amended C2: a NaN weighted feature is not replaced by zero — it
propagates through the component's weighted sum, and the final
`max(0.0, ·)` clamp then returns 0.0 for the whole component, so both the
reported component and its contribution to the raw score differ in general
from the zero-replaced vector.  Shown here for a NaN `tab_switch_rate`
and the extraneous component. -/
theorem C2_amended_nan_collapses_component (f : PFeatures) (histSize : ℕ)
    (hist : List ℚ) (hnan : f.tab_switch_rate = .nan) :
    weightedF (extraneousTermsF f) = .fin 0 ∧
    (estimateF histSize hist f).1.extraneous = 0 := by
  refine ⟨weightedF_nan_tab hnan, ?_⟩
  rw [estimateF_extraneous_eq, weightedF_nan_tab hnan]
  exact pyRound_zero 4

/-- Witness for the amended C2 at the concrete malformed vector. -/
theorem C2_amended_witness :
    weightedF (extraneousTermsF malformedVec) = .fin 0 ∧
    (estimateF 5 [] malformedVec).1.extraneous = 0 :=
  C2_amended_nan_collapses_component malformedVec 5 [] rfl

/-!
Signal processor sliding window (src/engine/inference/signal_processor.py).
The deque of events is a list in arrival order; the wall clock enters as an
explicit `now` parameter.
-/

/-- TelemetryEvent (signal_processor.py).  The metadata map is not read by
the event counting at issue in the eviction claim and is omitted. -/
structure TelemetryEvent where
  source : String := "browser"
  event_type : String
  timestamp : ℚ
deriving DecidableEq

/-- SignalProcessor._evict_stale: pop from the front while the front event
is older than `now − window_seconds`. -/
def evictStale (now window : ℚ) (q : List TelemetryEvent) : List TelemetryEvent :=
  q.dropWhile (fun e => decide (e.timestamp < now - window))

/-- SignalProcessor.push: append the event, then evict the stale front. -/
def pushEvent (now window : ℚ) (q : List TelemetryEvent) (e : TelemetryEvent) :
    List TelemetryEvent :=
  evictStale now window (q ++ [e])

/-- SignalProcessor._rate: the count of window events of one type. -/
def rateCount (events : List TelemetryEvent) (ty : String) : ℕ :=
  (events.filter (fun e => e.event_type == ty)).length

/-- The event count a subsequent `extract_features` computes: it first
evicts the stale front, then counts over the remaining window. -/
def featureCount (now window : ℚ) (q : List TelemetryEvent) (ty : String) : ℕ :=
  rateCount (evictStale now window q) ty

/-- An event with a current timestamp. -/
def freshEvent : TelemetryEvent := { event_type := "scroll", timestamp := 1000 }

/-- An event far older than the 300-second window at `now = 1000`. -/
def staleEvent : TelemetryEvent := { event_type := "tab_switch", timestamp := 100 }

/-- C6 fails on the code: pushing a stale event (timestamp 100 at
`now = 1000`, window 300) after a fresh one does not evict it — eviction
only pops a stale front — and the stale event still contributes to the
`tab_switch` count of a subsequent `extract_features`. -/
theorem C6_counterexample :
    staleEvent.timestamp < 1000 - 300 ∧
    staleEvent ∈ pushEvent 1000 300 [freshEvent] staleEvent ∧
    featureCount 1000 300 (pushEvent 1000 300 [freshEvent] staleEvent) "tab_switch" = 1 := by
  have hfresh : ¬ freshEvent.timestamp < 1000 - 300 := by
    norm_num [freshEvent]
  have hq : pushEvent 1000 300 [freshEvent] staleEvent = [freshEvent, staleEvent] := by
    unfold pushEvent evictStale
    simp [List.dropWhile, hfresh]
  refine ⟨by norm_num [staleEvent], ?_, ?_⟩
  · rw [hq]; simp
  · unfold featureCount
    rw [hq]
    rw [show evictStale 1000 300 [freshEvent, staleEvent] = [freshEvent, staleEvent] from by
      unfold evictStale
      rw [List.dropWhile_cons, if_neg (by simpa using hfresh)]]
    simp [rateCount, freshEvent, staleEvent]

theorem dropWhile_stale_sorted (now window : ℚ) :
    ∀ (l : List TelemetryEvent),
      List.Sorted (fun a b : TelemetryEvent => a.timestamp ≤ b.timestamp) l →
      ∀ x ∈ l.dropWhile (fun e => decide (e.timestamp < now - window)),
        ¬ x.timestamp < now - window := by
  intro l
  induction l with
  | nil => intro _ x hx; simp [List.dropWhile] at hx
  | cons a t ih =>
    intro hs x hx
    obtain ⟨hall, ht⟩ := List.sorted_cons.mp hs
    rw [List.dropWhile_cons] at hx
    by_cases ha : a.timestamp < now - window
    · rw [if_pos (by simpa using ha)] at hx
      exact ih ht x hx
    · rw [if_neg (by simpa using ha)] at hx
      rcases List.mem_cons.mp hx with h | h
      · rw [h]; exact ha
      · intro hlt
        exact ha (lt_of_le_of_lt (hall x h) hlt)

/-- Amended C6: eviction only removes a stale front segment, so the claim
holds exactly when the queue (with the new event appended) is in
non-decreasing timestamp order — the arrival order the deque is designed
for.  Then no stale event survives `push` (in particular a stale pushed
event is gone, and the whole queue empties when the pushed event itself is
stale); an out-of-order stale event sitting behind a fresher one is
retained, as the counterexample shows. -/
theorem C6_amended_eviction_sorted (now window : ℚ) (q : List TelemetryEvent)
    (e : TelemetryEvent)
    (hsorted : List.Sorted (fun a b : TelemetryEvent => a.timestamp ≤ b.timestamp) (q ++ [e])) :
    (∀ x ∈ pushEvent now window q e, ¬ x.timestamp < now - window) ∧
    (e.timestamp < now - window → pushEvent now window q e = []) ∧
    (∀ ty, e.timestamp < now - window →
      featureCount now window (pushEvent now window q e) ty = 0) := by
  have h1 : ∀ x ∈ pushEvent now window q e, ¬ x.timestamp < now - window :=
    dropWhile_stale_sorted now window (q ++ [e]) hsorted
  have h2 : e.timestamp < now - window → pushEvent now window q e = [] := by
    intro he
    unfold pushEvent evictStale
    rw [List.dropWhile_eq_nil_iff]
    intro x hx
    rcases List.mem_append.mp hx with h | h
    · have hxe : x.timestamp ≤ e.timestamp :=
        (List.pairwise_append.mp hsorted).2.2 x h e (by simp)
      simpa using lt_of_le_of_lt hxe he
    · have : x = e := by simpa using h
      rw [this]
      simpa using he
  refine ⟨h1, h2, ?_⟩
  intro ty he
  rw [show featureCount now window (pushEvent now window q e) ty
      = rateCount (evictStale now window (pushEvent now window q e)) ty from rfl,
    h2 he]
  rfl

/-- Witness for the amended C6: a sorted queue with a stale pushed event. -/
theorem C6_amended_witness :
    (∀ x ∈ pushEvent 1000 300 [staleEvent] staleEvent, ¬ x.timestamp < 1000 - 300) ∧
    (staleEvent.timestamp < 1000 - 300 → pushEvent 1000 300 [staleEvent] staleEvent = []) ∧
    (∀ ty, staleEvent.timestamp < 1000 - 300 →
      featureCount 1000 300 (pushEvent 1000 300 [staleEvent] staleEvent) ty = 0) :=
  C6_amended_eviction_sorted 1000 300 [staleEvent] staleEvent
    (by simp [List.sorted_cons, staleEvent])

/-!
Telemetry aggregator tick (src/engine/telemetry/aggregator.py) with a
fallible timeline append.  The statements of `tick` run in order:
estimate, classify, update the latest-state cell, then append; an
exception raised by the append leaves the already-updated state in place,
skips listener notification and propagates to the caller.  The driver
`_inference_loop` (src/engine/api/app.py) catches and logs every
exception from `tick`.
-/

/-- The aggregator's latest-state cell. -/
structure AggLatest where
  latestEstimate : Option LoadEstimate
  latestContext : CognitiveContext
deriving DecidableEq

/-- TelemetryAggregator.tick (aggregator.py lines 56-91) on the v1
estimator path.  `appendResult` is the outcome of the
`CognitiveTimeline.append` call: `.ok id` on success, `.error msg` when
the store raises.  The result triple is (new estimator history, new
latest-state cell, normal return or propagated exception). -/
def tickModel (histSize : ℕ) (hist : List ℚ) (s : AggLatest) (f : SignalFeatures)
    (appendResult : Except String ℤ) :
    List ℚ × AggLatest × Except String LoadEstimate :=
  let est := (estimate histSize hist f).1
  let hist2 := (estimate histSize hist f).2
  let ctx := classify f est.score
  let s2 : AggLatest := { latestEstimate := some est, latestContext := ctx }
  match appendResult with
  | .error msg => (hist2, s2, .error msg)
  | .ok _ => (hist2, s2, .ok est)

/-- TelemetryAggregator.current_state: (load_score, context, confidence),
with zeros and "unknown" before the first tick. -/
def currentState (s : AggLatest) : ℚ × String × ℚ :=
  (match s.latestEstimate with | some e => e.score | none => 0,
   s.latestContext.value,
   match s.latestEstimate with | some e => e.confidence | none => 0)

/-- One iteration of `_inference_loop` (app.py lines 31-37): run the tick
and swallow any exception, keeping the updated state. -/
def inferenceLoopStep (histSize : ℕ) (hist : List ℚ) (s : AggLatest)
    (f : SignalFeatures) (appendResult : Except String ℤ) : List ℚ × AggLatest :=
  let r := tickModel histSize hist s f appendResult
  (r.1, r.2.1)

/-- C7 fails on the code: `tick` has no exception handling around the
timeline append, so a store error propagates out of `tick` itself (the
catch lives in the inference loop, not in `tick`). -/
theorem C7_counterexample :
    (tickModel 5 [] ⟨none, .unknown⟩ {} (.error "db failure")).2.2
      = .error "db failure" := rfl

/-- Amended C7: a timeline-append error propagates out of `tick` to its
caller; the latest-state cell was already updated before the append, so
`current_state` reports the fresh estimate and context, and the
surrounding inference loop catches the exception and continues with
exactly the state a successful tick would have produced (only persistence
and listener notification are lost). -/
theorem C7_amended_tick_propagates (histSize : ℕ) (hist : List ℚ) (s : AggLatest)
    (f : SignalFeatures) (msg : String) :
    (tickModel histSize hist s f (.error msg)).2.1.latestEstimate
      = some (estimate histSize hist f).1 ∧
    (tickModel histSize hist s f (.error msg)).2.1.latestContext
      = classify f (estimate histSize hist f).1.score ∧
    (currentState (tickModel histSize hist s f (.error msg)).2.1).1
      = (estimate histSize hist f).1.score ∧
    (tickModel histSize hist s f (.error msg)).2.2 = .error msg ∧
    inferenceLoopStep histSize hist s f (.error msg)
      = inferenceLoopStep histSize hist s f (.ok 1) :=
  ⟨rfl, rfl, rfl, rfl, rfl⟩

/-!
Timeline store and session reconstruction
(src/engine/telemetry/timeline.py).  The persisted table is a list of
entries; SQLite `ORDER BY timestamp DESC` is modelled by a deterministic
insertion sort (SQLite leaves the relative order of equal timestamps
unspecified, so any fixed choice is a faithful refinement).
-/

/-- Filter of CognitiveTimeline.query: `timestamp >= since` and
`timestamp <= until` clauses are added only when the corresponding Python
argument is truthy (absent or `0.0` bounds add no clause), and the
`source = ?` clause when a source is given. -/
def matchesQuery (sinceQ untilQ : Option ℚ) (src : Option String)
    (t : TimelineEntry) : Bool :=
  (match sinceQ with
    | none => true
    | some s => if s = 0 then true else decide (s ≤ t.timestamp)) &&
  (match untilQ with
    | none => true
    | some u => if u = 0 then true else decide (t.timestamp ≤ u)) &&
  (match src with
    | none => true
    | some nm => t.source == nm)

/-- Insert into a timestamp-descending list, keeping the new entry after
any entry with an equal or larger timestamp. -/
def insertDesc (e : TimelineEntry) : List TimelineEntry → List TimelineEntry
  | [] => [e]
  | a :: as => if a.timestamp < e.timestamp then e :: a :: as else a :: insertDesc e as

/-- Sort entries by timestamp, newest first (`ORDER BY timestamp DESC`). -/
def sortDesc : List TimelineEntry → List TimelineEntry
  | [] => []
  | a :: as => insertDesc a (sortDesc as)

/-- CognitiveTimeline.query (timeline.py lines 89-119): filter, order by
timestamp descending, `LIMIT`. -/
def queryModel (db : List TimelineEntry) (sinceQ untilQ : Option ℚ)
    (src : Option String) (limit : ℕ) : List TimelineEntry :=
  (sortDesc (db.filter (matchesQuery sinceQ untilQ src))).take limit

/-- The chronological engine inference ticks walked by `get_sessions`
(timeline.py lines 130-164): query `source="engine"` with limit 10000,
reverse to ascending order, keep `inference_tick` entries. -/
def chronoTicks (db : List TimelineEntry) (sinceQ untilQ : Option ℚ) :
    List TimelineEntry :=
  ((queryModel db sinceQ untilQ (some "engine") 10000).reverse).filter
    (fun e => e.event_type == "inference_tick")

/-- The loop of `get_sessions`: `cur` holds the current run in reverse
(head = most recent tick of the run); a tick whose gap from the previous
one exceeds `gapS` closes the run and starts a new one. -/
def goSplit (gapS : ℚ) (cur : List TimelineEntry) :
    List TimelineEntry → List (List TimelineEntry)
  | [] => [cur.reverse]
  | t :: ts =>
    match cur with
    | [] => goSplit gapS [t] ts
    | c :: _ =>
      if gapS < t.timestamp - c.timestamp
        then cur.reverse :: goSplit gapS [t] ts
        else goSplit gapS (t :: cur) ts

/-- Gap-based partition of the tick walk (`gap_s = gap_minutes * 60.0`). -/
def splitGap (gapS : ℚ) : List TimelineEntry → List (List TimelineEntry)
  | [] => []
  | t :: ts => goSplit gapS [t] ts

/-- The runs of ticks that `get_sessions` summarises, oldest first. -/
def getSessionRuns (db : List TimelineEntry) (sinceQ untilQ : Option ℚ)
    (gapMinutes : ℚ) : List (List TimelineEntry) :=
  splitGap (gapMinutes * 60) (chronoTicks db sinceQ untilQ)

theorem goSplit_flatten (gapS : ℚ) :
    ∀ (rest cur : List TimelineEntry),
      (goSplit gapS cur rest).flatten = cur.reverse ++ rest := by
  intro rest
  induction rest with
  | nil => intro cur; simp [goSplit]
  | cons t ts ih =>
    intro cur
    cases cur with
    | nil =>
      rw [goSplit, ih]
      simp
    | cons c cs =>
      rw [goSplit]
      split
      · rw [List.flatten_cons, ih]
        simp
      · rw [ih]
        simp

theorem goSplit_ne_nil_mem (gapS : ℚ) :
    ∀ (rest cur : List TimelineEntry), cur ≠ [] →
      ∀ s ∈ goSplit gapS cur rest, s ≠ [] := by
  intro rest
  induction rest with
  | nil =>
    intro cur hcur s hs
    rw [goSplit] at hs
    have : s = cur.reverse := by simpa using hs
    rw [this]
    simpa using hcur
  | cons t ts ih =>
    intro cur hcur s hs
    cases cur with
    | nil => exact absurd rfl hcur
    | cons c cs =>
      rw [goSplit] at hs
      split at hs
      · rcases List.mem_cons.mp hs with h | h
        · rw [h]; simp
        · exact ih [t] (by simp) s h
      · exact ih (t :: c :: cs) (by simp) s hs

/-- Adjacent ticks kept in one run are at most `gapS` apart. -/
def withinGap (gapS : ℚ) (a b : TimelineEntry) : Prop :=
  b.timestamp - a.timestamp ≤ gapS

/-- Adjacent runs are separated by a gap strictly above `gapS`. -/
def boundaryGap (gapS : ℚ) (s1 s2 : List TimelineEntry) : Prop :=
  ∀ a ∈ s1.getLast?, ∀ b ∈ s2.head?, gapS < b.timestamp - a.timestamp

theorem goSplit_chain_within (gapS : ℚ) :
    ∀ (rest cur : List TimelineEntry),
      List.Chain' (withinGap gapS) cur.reverse →
      ∀ s ∈ goSplit gapS cur rest, List.Chain' (withinGap gapS) s := by
  intro rest
  induction rest with
  | nil =>
    intro cur hcur s hs
    rw [goSplit] at hs
    have : s = cur.reverse := by simpa using hs
    rw [this]
    exact hcur
  | cons t ts ih =>
    intro cur hcur s hs
    cases cur with
    | nil =>
      rw [goSplit] at hs
      exact ih [t] (by simp) s hs
    | cons c cs =>
      rw [goSplit] at hs
      split at hs
      · rcases List.mem_cons.mp hs with h | h
        · rw [h]; exact hcur
        · exact ih [t] (by simp) s h
      · rename_i hgap
        refine ih (t :: c :: cs) ?_ s hs
        have hrw : (t :: c :: cs).reverse = (c :: cs).reverse ++ [t] := by simp
        rw [hrw, List.chain'_append]
        refine ⟨hcur, List.chain'_singleton t, ?_⟩
        intro x hx y hy
        have hx2 : c = x := by
          rw [List.getLast?_reverse] at hx
          simpa using hx
        have hy2 : t = y := by simpa using hy
        rw [← hx2, ← hy2]
        exact le_of_not_lt hgap

theorem goSplit_boundary (gapS : ℚ) :
    ∀ (rest cur : List TimelineEntry), cur ≠ [] →
      List.Chain' (boundaryGap gapS) (goSplit gapS cur rest) ∧
      (∀ s rest2, goSplit gapS cur rest = s :: rest2 → s.head? = cur.getLast?) := by
  intro rest
  induction rest with
  | nil =>
    intro cur hcur
    constructor
    · rw [goSplit]
      exact List.chain'_singleton _
    · intro s rest2 hs
      rw [goSplit] at hs
      have h1 : s = cur.reverse := ((List.cons.inj hs).1).symm
      rw [h1, List.head?_reverse]
  | cons t ts ih =>
    intro cur hcur
    cases cur with
    | nil => exact absurd rfl hcur
    | cons c cs =>
      rw [goSplit]
      split
      · rename_i hgap
        obtain ⟨ihc, ihh⟩ := ih [t] (by simp)
        constructor
        · rw [List.chain'_cons']
          refine ⟨?_, ihc⟩
          intro y hy
          cases hgo : goSplit gapS [t] ts with
          | nil =>
            rw [hgo] at hy
            simp at hy
          | cons s2 rest2 =>
            have hhead : s2.head? = some t := by
              have := ihh s2 rest2 hgo
              simpa using this
            rw [hgo] at hy
            have hy2 : s2 = y := by simpa using hy
            intro a ha b hb
            have ha2 : c = a := by
              rw [List.getLast?_reverse] at ha
              simpa using ha
            rw [← hy2, hhead] at hb
            have hb2 : t = b := by simpa using hb
            rw [← ha2, ← hb2]
            exact hgap
        · intro s rest2 hs
          have h1 : s = (c :: cs).reverse := ((List.cons.inj hs).1).symm
          rw [h1, List.head?_reverse]
      · rename_i hgap
        obtain ⟨ihc, ihh⟩ := ih (t :: c :: cs) (by simp)
        refine ⟨ihc, ?_⟩
        intro s rest2 hs
        have := ihh s rest2 hs
        rw [this]
        rfl

/-- C3: for any queried range and any `gap_minutes`, the runs produced by
`get_sessions` cover the chronological engine inference ticks exactly, and
a split falls between two adjacent ticks precisely when their gap exceeds
`gap_minutes · 60` seconds: inside a run every adjacent pair is at most
`gap_minutes · 60` apart, and across consecutive runs the last tick of one
and the first tick of the next are strictly more than `gap_minutes · 60`
apart. -/
theorem C3_gap_splits_sessions (db : List TimelineEntry)
    (sinceQ untilQ : Option ℚ) (gapMinutes : ℚ) :
    (getSessionRuns db sinceQ untilQ gapMinutes).flatten
        = chronoTicks db sinceQ untilQ ∧
    (∀ s ∈ getSessionRuns db sinceQ untilQ gapMinutes,
      s ≠ [] ∧ List.Chain' (withinGap (gapMinutes * 60)) s) ∧
    List.Chain' (boundaryGap (gapMinutes * 60))
      (getSessionRuns db sinceQ untilQ gapMinutes) := by
  unfold getSessionRuns
  cases hct : chronoTicks db sinceQ untilQ with
  | nil =>
    rw [splitGap]
    exact ⟨rfl, by intro s hs; simp at hs, List.chain'_nil⟩
  | cons t ts =>
    rw [splitGap]
    refine ⟨?_, ?_, ?_⟩
    · rw [goSplit_flatten]
      simp
    · intro s hs
      exact ⟨goSplit_ne_nil_mem _ ts [t] (by simp) s hs,
        goSplit_chain_within _ ts [t] (by simp) s hs⟩
    · exact (goSplit_boundary _ ts [t] (by simp)).1

/-- The persisted engine inference ticks whose timestamps fall in the
queried range (the claim's reference set). -/
def ticksInRangeModel (db : List TimelineEntry) (sinceQ untilQ : Option ℚ) :
    List TimelineEntry :=
  (db.filter (matchesQuery sinceQ untilQ (some "engine"))).filter
    (fun e => e.event_type == "inference_tick")

theorem insertDesc_perm (e : TimelineEntry) (l : List TimelineEntry) :
    (insertDesc e l).Perm (e :: l) := by
  induction l with
  | nil => rfl
  | cons a as ih =>
    rw [insertDesc]
    split
    · rfl
    · exact (ih.cons a).trans (List.Perm.swap e a as)

theorem sortDesc_perm (l : List TimelineEntry) : (sortDesc l).Perm l := by
  induction l with
  | nil => rfl
  | cons a as ih =>
    rw [sortDesc]
    exact (insertDesc_perm a (sortDesc as)).trans (ih.cons a)

theorem sortDesc_of_sorted :
    ∀ (l : List TimelineEntry),
      List.Pairwise (fun a b => b.timestamp < a.timestamp) l → sortDesc l = l := by
  intro l
  induction l with
  | nil => intro _; rfl
  | cons a as ih =>
    intro hp
    obtain ⟨hall, htail⟩ := List.pairwise_cons.mp hp
    rw [sortDesc, ih htail]
    cases as with
    | nil => rfl
    | cons b bs =>
      rw [insertDesc, if_pos (hall b (by simp))]

theorem countP_flatten_nodup {α : Type} [DecidableEq α] :
    ∀ (L : List (List α)) (t : α), L.flatten.Nodup → t ∈ L.flatten →
      L.countP (fun s => decide (t ∈ s)) = 1 := by
  intro L
  induction L with
  | nil => intro t _ ht; simp at ht
  | cons s rest ih =>
    intro t hnd hmem
    rw [List.flatten_cons] at hnd hmem
    obtain ⟨hs, hrest, hdisj⟩ := List.nodup_append.mp hnd
    rw [List.countP_cons]
    rcases List.mem_append.mp hmem with h | h
    · have hz : rest.countP (fun s2 => decide (t ∈ s2)) = 0 := by
        rw [List.countP_eq_zero]
        intro s2 hs2
        simp only [decide_eq_true_eq]
        intro hts2
        exact hdisj h (List.mem_flatten.mpr ⟨s2, hs2, hts2⟩)
      rw [hz]
      simp [h]
    · have h1 : rest.countP (fun s2 => decide (t ∈ s2)) = 1 := ih t hrest h
      have hns : t ∉ s := fun hts => hdisj hts h
      rw [h1]
      simp [hns]

/-- Amended C4: the query behind `get_sessions` caps at the newest 10000
matching entries, so the partition is of the query result.  When at most
10000 persisted entries match the range (and the matching ticks are
pairwise distinct records), the returned runs partition exactly the
persisted engine inference ticks in the range: every such tick lies in
exactly one run, every run is nonempty, and runs contain only such
ticks. -/
theorem C4_amended_partition (db : List TimelineEntry)
    (sinceQ untilQ : Option ℚ) (gapMinutes : ℚ)
    (hlim : (db.filter (matchesQuery sinceQ untilQ (some "engine"))).length ≤ 10000)
    (hnd : (ticksInRangeModel db sinceQ untilQ).Nodup) :
    (∀ s ∈ getSessionRuns db sinceQ untilQ gapMinutes, s ≠ []) ∧
    (∀ t ∈ ticksInRangeModel db sinceQ untilQ,
      (getSessionRuns db sinceQ untilQ gapMinutes).countP
        (fun s => decide (t ∈ s)) = 1) ∧
    (∀ s ∈ getSessionRuns db sinceQ untilQ gapMinutes,
      ∀ t ∈ s, t ∈ ticksInRangeModel db sinceQ untilQ) := by
  have hperm : (chronoTicks db sinceQ untilQ).Perm (ticksInRangeModel db sinceQ untilQ) := by
    unfold chronoTicks queryModel ticksInRangeModel
    have hlen : (sortDesc (db.filter (matchesQuery sinceQ untilQ (some "engine")))).length
        ≤ 10000 :=
      le_trans (le_of_eq (sortDesc_perm _).length_eq) hlim
    rw [List.take_of_length_le hlen]
    exact List.Perm.filter _
      ((List.reverse_perm _).trans (sortDesc_perm _))
  have hflat : (getSessionRuns db sinceQ untilQ gapMinutes).flatten
      = chronoTicks db sinceQ untilQ := by
    unfold getSessionRuns
    cases hct : chronoTicks db sinceQ untilQ with
    | nil => rw [splitGap]; rfl
    | cons t ts =>
      rw [splitGap, goSplit_flatten]
      simp
  have hflatperm : (getSessionRuns db sinceQ untilQ gapMinutes).flatten.Perm
      (ticksInRangeModel db sinceQ untilQ) := hflat ▸ hperm
  refine ⟨?_, ?_, ?_⟩
  · intro s hs
    unfold getSessionRuns at hs
    cases hct : chronoTicks db sinceQ untilQ with
    | nil => rw [hct, splitGap] at hs; simp at hs
    | cons t ts =>
      rw [hct, splitGap] at hs
      exact goSplit_ne_nil_mem _ ts [t] (by simp) s hs
  · intro t ht
    apply countP_flatten_nodup
    · exact hflatperm.nodup_iff.mpr hnd
    · exact hflatperm.mem_iff.mpr ht
  · intro s hs t ht
    exact hflatperm.mem_iff.mp (List.mem_flatten.mpr ⟨s, hs, ht⟩)

theorem sessionRuns_flatten (db : List TimelineEntry) (sinceQ untilQ : Option ℚ)
    (gapMinutes : ℚ) :
    (getSessionRuns db sinceQ untilQ gapMinutes).flatten
      = chronoTicks db sinceQ untilQ := by
  unfold getSessionRuns
  cases hct : chronoTicks db sinceQ untilQ with
  | nil => rw [splitGap]; rfl
  | cons t ts =>
    rw [splitGap, goSplit_flatten]
    simp

/-- One engine inference tick per index; timestamps descend with the
index, so `(List.range 10001).map mkBigTick` is a DB of 10001 engine
ticks at timestamps 10000, 9999, …, 0, one second apart. -/
def mkBigTick (i : ℕ) : TimelineEntry :=
  { id := none
    timestamp := (10000 : ℚ) - (i : ℚ)
    source := "engine"
    event_type := "inference_tick"
    load_score := 1/2
    context := "deep_focus"
    metadata_json := "{}" }

/-- A persisted table holding 10001 engine inference ticks. -/
def dbBig : List TimelineEntry := (List.range 10001).map mkBigTick

theorem dbBig_sorted :
    List.Pairwise (fun a b : TimelineEntry => b.timestamp < a.timestamp) dbBig := by
  unfold dbBig
  rw [List.pairwise_map]
  refine (List.pairwise_lt_range 10001).imp ?_
  intro i j hij
  exact sub_lt_sub_left (by exact_mod_cast hij) (10000 : ℚ)

theorem dbBig_filter_match :
    dbBig.filter (matchesQuery none none (some "engine")) = dbBig := by
  rw [List.filter_eq_self]
  intro t ht
  obtain ⟨i, _, rfl⟩ := List.mem_map.mp ht
  rfl

theorem dbBig_query :
    queryModel dbBig none none (some "engine") 10000
      = (List.range 10000).map mkBigTick := by
  unfold queryModel
  rw [dbBig_filter_match, sortDesc_of_sorted dbBig dbBig_sorted]
  unfold dbBig
  rw [← List.map_take, List.take_range]
  norm_num

/-- C4 fails on the code: with 10001 persisted engine inference ticks in
the queried (unbounded) range, the query's `LIMIT 10_000` drops the oldest
tick, which therefore lies in the range yet belongs to no returned
session. -/
theorem C4_counterexample :
    mkBigTick 10000 ∈ ticksInRangeModel dbBig none none ∧
    (getSessionRuns dbBig none none 10).countP
      (fun s => decide (mkBigTick 10000 ∈ s)) = 0 := by
  constructor
  · unfold ticksInRangeModel
    rw [dbBig_filter_match]
    rw [List.filter_eq_self.mpr (by
      intro t ht
      obtain ⟨i, _, rfl⟩ := List.mem_map.mp ht
      rfl)]
    exact List.mem_map.mpr ⟨10000, by simp, rfl⟩
  · rw [List.countP_eq_zero]
    intro s hs
    simp only [decide_eq_true_eq]
    intro hts
    have hflat : mkBigTick 10000 ∈ (getSessionRuns dbBig none none 10).flatten :=
      List.mem_flatten.mpr ⟨s, hs, hts⟩
    rw [sessionRuns_flatten] at hflat
    unfold chronoTicks at hflat
    rw [dbBig_query] at hflat
    have hmem : mkBigTick 10000 ∈ (List.range 10000).map mkBigTick := by
      have := List.mem_filter.mp hflat
      exact List.mem_reverse.mp this.1
    obtain ⟨i, hi, heq⟩ := List.mem_map.mp hmem
    have hts2 : (10000 : ℚ) - (i : ℚ) = 10000 - (10000 : ℕ) :=
      congrArg TimelineEntry.timestamp heq
    have : (i : ℚ) = (10000 : ℕ) := by
      push_cast at hts2 ⊢
      linarith
    have hi10000 : i = 10000 := by exact_mod_cast this
    rw [List.mem_range] at hi
    omega

/-- Witness for the amended C4 on a two-tick store. -/
def tickW1 : TimelineEntry :=
  { id := none, timestamp := 100, source := "engine",
    event_type := "inference_tick", load_score := 1/2,
    context := "deep_focus", metadata_json := "{}" }

def tickW2 : TimelineEntry :=
  { id := none, timestamp := 2000, source := "engine",
    event_type := "inference_tick", load_score := 1/2,
    context := "stuck", metadata_json := "{}" }

theorem C4_amended_witness :
    (∀ s ∈ getSessionRuns [tickW1, tickW2] none none 10, s ≠ []) ∧
    (∀ t ∈ ticksInRangeModel [tickW1, tickW2] none none,
      (getSessionRuns [tickW1, tickW2] none none 10).countP
        (fun s => decide (t ∈ s)) = 1) ∧
    (∀ s ∈ getSessionRuns [tickW1, tickW2] none none 10,
      ∀ t ∈ s, t ∈ ticksInRangeModel [tickW1, tickW2] none none) := by
  apply C4_amended_partition
  · have : ([tickW1, tickW2].filter
        (matchesQuery none none (some "engine"))) = [tickW1, tickW2] := by
      rw [List.filter_eq_self]
      intro t ht
      rcases List.mem_cons.mp ht with h | h
      · rw [h]; rfl
      · have : t = tickW2 := by simpa using h
        rw [this]; rfl
    rw [this]
    norm_num
  · unfold ticksInRangeModel
    refine List.Nodup.filter _ (List.Nodup.filter _ ?_)
    rw [List.nodup_cons]
    refine ⟨?_, by simp⟩
    intro hmem
    have : tickW1 = tickW2 := by simpa using hmem
    have := congrArg TimelineEntry.timestamp this
    norm_num [tickW1, tickW2] at this

/-!
Session summaries (`_build_session`, timeline.py lines 260-279).  Python
dict iteration is first-seen insertion order, modelled by `dedupKeys`;
Python `max(dict, key=...)` keeps the first maximal key, modelled by
`argmaxFirst`.
-/

/-- The distinct context strings of a run, in first-seen order. -/
def dedupKeys : List String → List String
  | [] => []
  | c :: cs => c :: (dedupKeys cs).filter (fun x => x != c)

/-- Python `max(keys, key=count)`: first key of maximal count. -/
def argmaxFirst (keys : List String) (count : String → ℕ) : String :=
  match keys with
  | [] => ""
  | k :: ks => ks.foldl (fun best x => if count best < count x then x else best) k

/-- Python `max` over a non-empty list of floats (`max(scores)`);
the `[]` case is never hit by `_build_session`. -/
def maxList : List ℚ → ℚ
  | [] => 0
  | x :: xs => xs.foldl pyMaxQ x

def firstTs (ticks : List TimelineEntry) : ℚ :=
  match ticks.head? with
  | some t => t.timestamp
  | none => 0

def lastTs (ticks : List TimelineEntry) : ℚ :=
  match ticks.getLast? with
  | some t => t.timestamp
  | none => 0

/-- SessionSummary (timeline.py). -/
structure SessionSummary where
  session_index : ℕ
  start_ts : ℚ
  end_ts : ℚ
  duration_minutes : ℚ
  tick_count : ℕ
  avg_load_score : ℚ
  peak_load_score : ℚ
  context_distribution : List (String × ℚ)
  dominant_context : String
deriving DecidableEq

/-- `_build_session(idx, ticks)` for a non-empty run of ticks. -/
def buildSession (idx : ℕ) (ticks : List TimelineEntry) : SessionSummary :=
  let scores := ticks.map (fun t => t.load_score)
  let ctxs := ticks.map (fun t => t.context)
  let total : ℕ := ticks.length
  let keys := dedupKeys ctxs
  { session_index := idx
    start_ts := firstTs ticks
    end_ts := lastTs ticks
    duration_minutes := pyRound ((lastTs ticks - firstTs ticks) / 60) 2
    tick_count := total
    avg_load_score := pyRound (scores.sum / (total : ℚ)) 4
    peak_load_score := pyRound (maxList scores) 4
    context_distribution := keys.map (fun c => (c, pyRound ((ctxs.count c : ℚ) / (total : ℚ)) 4))
    dominant_context := argmaxFirst keys (fun c => ctxs.count c) }

/-- CognitiveTimeline.get_sessions: one summary per run, oldest first. -/
def getSessionsModel (db : List TimelineEntry) (sinceQ untilQ : Option ℚ)
    (gapMinutes : ℚ) : List SessionSummary :=
  ((getSessionRuns db sinceQ untilQ gapMinutes).enum).map
    (fun p => buildSession p.1 p.2)

theorem nodup_dedupKeys : ∀ (l : List String), (dedupKeys l).Nodup := by
  intro l
  induction l with
  | nil => exact List.nodup_nil
  | cons c cs ih =>
    rw [dedupKeys, List.nodup_cons]
    constructor
    · intro hmem
      have := List.mem_filter.mp hmem
      simpa using this.2
    · exact List.Nodup.filter _ ih

theorem mem_dedupKeys : ∀ (l : List String) (x : String), x ∈ dedupKeys l ↔ x ∈ l := by
  intro l
  induction l with
  | nil => intro x; rfl
  | cons c cs ih =>
    intro x
    rw [dedupKeys]
    constructor
    · intro hx
      rcases List.mem_cons.mp hx with h | h
      · rw [h]; simp
      · exact List.mem_cons.mpr (Or.inr ((ih x).mp (List.mem_filter.mp h).1))
    · intro hx
      rcases List.mem_cons.mp hx with h | h
      · rw [h]; simp
      · by_cases hxc : x = c
        · rw [hxc]; simp
        · refine List.mem_cons.mpr (Or.inr (List.mem_filter.mpr ⟨(ih x).mpr h, ?_⟩))
          simpa using hxc

theorem sum_filter_ne (f : String → ℕ) (c : String) :
    ∀ (l : List String), l.Nodup →
      (((l.filter (fun x => x != c)).map f).sum + (if c ∈ l then f c else 0)
        = (l.map f).sum) := by
  intro l
  induction l with
  | nil => intro _; simp
  | cons a as ih =>
    intro hnd
    obtain ⟨hna, hnas⟩ := List.nodup_cons.mp hnd
    by_cases hac : a = c
    · rw [hac] at hna ⊢
      rw [List.filter_cons_of_neg (by simp)]
      rw [if_pos (by simp)]
      have hfeq : as.filter (fun x => x != c) = as := by
        rw [List.filter_eq_self]
        intro x hx
        simp only [bne_iff_ne, ne_eq]
        intro hxc
        exact hna (hxc ▸ hx)
      rw [hfeq]
      simp [Nat.add_comm]
    · rw [List.filter_cons_of_pos (by simpa using hac)]
      rw [List.map_cons, List.sum_cons, List.map_cons, List.sum_cons]
      have hih := ih hnas
      by_cases hcas : c ∈ as
      · rw [if_pos (List.mem_cons.mpr (Or.inr hcas))]
        rw [if_pos hcas] at hih
        omega
      · rw [if_neg (by
          intro h
          rcases List.mem_cons.mp h with h | h
          · exact hac h.symm
          · exact hcas h)]
        rw [if_neg hcas] at hih
        omega

theorem sum_count_dedupKeys :
    ∀ (l : List String), ((dedupKeys l).map (fun c => l.count c)).sum = l.length := by
  intro l
  induction l with
  | nil => simp [dedupKeys]
  | cons c cs ih =>
    rw [dedupKeys, List.map_cons, List.sum_cons]
    have hmapeq : ((dedupKeys cs).filter (fun x => x != c)).map
          (fun x => (c :: cs).count x)
        = ((dedupKeys cs).filter (fun x => x != c)).map (fun x => cs.count x) := by
      apply List.map_congr_left
      intro x hx
      have hxc : x ≠ c := by simpa using (List.mem_filter.mp hx).2
      exact List.count_cons_of_ne hxc cs
    rw [hmapeq]
    have hkey := sum_filter_ne (fun x => cs.count x) c (dedupKeys cs) (nodup_dedupKeys cs)
    have hcc : (if c ∈ dedupKeys cs then cs.count c else 0) = cs.count c := by
      by_cases hc : c ∈ cs
      · rw [if_pos ((mem_dedupKeys cs c).mpr hc)]
      · rw [if_neg (fun hmem => hc ((mem_dedupKeys cs c).mp hmem))]
        exact (List.count_eq_zero.mpr hc).symm
    rw [hcc] at hkey
    rw [List.count_cons_self]
    have : ((dedupKeys cs).map (fun x => cs.count x)).sum = cs.length := ih
    simp only [List.length_cons]
    omega

theorem foldl_pyMax_ge_init : ∀ (ys : List ℚ) (x : ℚ), x ≤ ys.foldl pyMaxQ x := by
  intro ys
  induction ys with
  | nil => intro x; exact le_refl x
  | cons y ys ih =>
    intro x
    rw [List.foldl_cons]
    exact le_trans (by rw [pyMaxQ_eq_max]; exact le_max_left x y) (ih (pyMaxQ x y))

theorem foldl_pyMax_ge_mem :
    ∀ (ys : List ℚ) (x z : ℚ), z ∈ ys → z ≤ ys.foldl pyMaxQ x := by
  intro ys
  induction ys with
  | nil => intro x z hz; simp at hz
  | cons y ys ih =>
    intro x z hz
    rw [List.foldl_cons]
    rcases List.mem_cons.mp hz with h | h
    · rw [h]
      exact le_trans (by rw [pyMaxQ_eq_max]; exact le_max_right x y)
        (foldl_pyMax_ge_init ys (pyMaxQ x y))
    · exact ih (pyMaxQ x y) z h

theorem maxList_ge {l : List ℚ} (x : ℚ) (hx : x ∈ l) : x ≤ maxList l := by
  cases l with
  | nil => simp at hx
  | cons y ys =>
    rw [maxList]
    rcases List.mem_cons.mp hx with h | h
    · rw [h]; exact foldl_pyMax_ge_init ys y
    · exact foldl_pyMax_ge_mem ys y x h

theorem sum_map_sub_q {α : Type} (l : List α) (f g : α → ℚ) :
    (l.map f).sum - (l.map g).sum = (l.map (fun a => f a - g a)).sum := by
  induction l with
  | nil => simp
  | cons a as ih =>
    simp only [List.map_cons, List.sum_cons]
    linarith [ih]

theorem abs_sum_le_q {α : Type} (l : List α) (h : α → ℚ) :
    |(l.map h).sum| ≤ (l.map (fun a => |h a|)).sum := by
  induction l with
  | nil => simp
  | cons a as ih =>
    simp only [List.map_cons, List.sum_cons]
    exact le_trans (abs_add _ _) (by linarith [ih])

theorem firstTs_le_lastTs (ticks : List TimelineEntry) (hne : ticks ≠ [])
    (hs : List.Sorted (fun a b : TimelineEntry => a.timestamp ≤ b.timestamp) ticks) :
    firstTs ticks ≤ lastTs ticks := by
  cases ticks with
  | nil => exact absurd rfl hne
  | cons a rest =>
    unfold firstTs lastTs
    rw [List.getLast?_eq_getLast_of_ne_nil (List.cons_ne_nil a rest)]
    simp only [List.head?_cons]
    have hb : (a :: rest).getLast (List.cons_ne_nil a rest) ∈ a :: rest :=
      List.getLast_mem _
    rcases List.mem_cons.mp hb with h | h
    · rw [h]
    · exact (List.sorted_cons.mp hs).1 _ h

/-- C5: for every SessionSummary built from a non-empty chronological run
of ticks whose contexts come from the CognitiveContext enumeration and
whose load scores are non-negative, the context distribution sums to 1
within ±10⁻³, `peak_load_score ≥ avg_load_score ≥ 0`,
`duration_minutes ≥ 0`, and a single-tick session has zero duration. -/
theorem C5_session_invariants (idx : ℕ) (ticks : List TimelineEntry)
    (hne : ticks ≠ [])
    (hctx : ∀ t ∈ ticks, t.context ∈ contextValues)
    (hsc : ∀ t ∈ ticks, 0 ≤ t.load_score)
    (hsorted : List.Sorted (fun a b : TimelineEntry => a.timestamp ≤ b.timestamp) ticks) :
    |((buildSession idx ticks).context_distribution.map (fun p => p.2)).sum - 1|
        ≤ 1/1000 ∧
    (buildSession idx ticks).avg_load_score ≤ (buildSession idx ticks).peak_load_score ∧
    0 ≤ (buildSession idx ticks).avg_load_score ∧
    0 ≤ (buildSession idx ticks).duration_minutes ∧
    (∀ t : TimelineEntry, ticks = [t] → (buildSession idx ticks).duration_minutes = 0) := by
  have htotpos : 0 < ticks.length := List.length_pos.mpr hne
  have htotQ : (0 : ℚ) < (ticks.length : ℚ) := by exact_mod_cast htotpos
  refine ⟨?_, ?_, ?_, ?_, ?_⟩
  · -- distribution sum
    have hdist : (buildSession idx ticks).context_distribution
        = (dedupKeys (ticks.map (fun t => t.context))).map
            (fun c => (c, pyRound (((ticks.map (fun t => t.context)).count c : ℚ)
              / (ticks.length : ℚ)) 4)) := rfl
    rw [hdist, List.map_map]
    have hcomp : ((fun p : String × ℚ => p.2) ∘
        (fun c => (c, pyRound (((ticks.map (fun t => t.context)).count c : ℚ)
          / (ticks.length : ℚ)) 4)))
        = fun c => pyRound (((ticks.map (fun t => t.context)).count c : ℚ)
          / (ticks.length : ℚ)) 4 := rfl
    rw [hcomp]
    set ctxs := ticks.map (fun t => t.context) with hctxs
    set keys := dedupKeys ctxs with hkeys
    set xv : String → ℚ :=
      fun c => ((ctxs.count c : ℚ) / (ticks.length : ℚ)) with hxv
    have hU : (keys.map xv).sum = 1 := by
      have h1 : (keys.map xv).sum
          = (keys.map (fun c => (ctxs.count c : ℚ) * ((ticks.length : ℚ))⁻¹)).sum := by
        apply congrArg
        apply List.map_congr_left
        intro c _
        exact div_eq_mul_inv _ _
      rw [h1, List.sum_map_mul_right]
      have h2 : (keys.map (fun c => ((ctxs.count c : ℕ) : ℚ))).sum
          = (((keys.map (fun c => ctxs.count c)).sum : ℕ) : ℚ) := by
        rw [Nat.cast_list_sum, List.map_map]
        rfl
      rw [h2, sum_count_dedupKeys]
      have hlen : ctxs.length = ticks.length := List.length_map _ _
      rw [hlen]
      exact mul_inv_cancel₀ (ne_of_gt htotQ)
    have hsub : (keys.map (fun c => pyRound (xv c) 4)).sum - 1
        = (keys.map (fun c => pyRound (xv c) 4 - xv c)).sum := by
      rw [← hU, sum_map_sub_q]
    rw [hsub]
    have hbound : (keys.map (fun c => |pyRound (xv c) 4 - xv c|)).sum
        ≤ (keys.length : ℚ) * (1/20000) := by
      have := List.sum_le_card_nsmul
        (keys.map (fun c => |pyRound (xv c) 4 - xv c|)) (1/20000 : ℚ)
        (by
          intro y hy
          obtain ⟨c, _, rfl⟩ := List.mem_map.mp hy
          have := abs_pyRound_sub (xv c) 4
          calc |pyRound (xv c) 4 - xv c| ≤ 1 / (2 * 10 ^ 4) := this
            _ = 1/20000 := by norm_num)
      rw [List.length_map] at this
      calc (keys.map (fun c => |pyRound (xv c) 4 - xv c|)).sum
          ≤ keys.length • (1/20000 : ℚ) := this
        _ = (keys.length : ℚ) * (1/20000) := nsmul_eq_mul _ _
    have hklen : keys.length ≤ 6 := by
      have hsubset : keys ⊆ contextValues := by
        intro x hx
        have hxc : x ∈ ctxs := (mem_dedupKeys ctxs x).mp hx
        obtain ⟨t, ht, rfl⟩ := List.mem_map.mp hxc
        exact hctx t ht
      have := (List.Nodup.subperm (nodup_dedupKeys ctxs) hsubset).length_le
      simpa using this
    calc |(keys.map (fun c => pyRound (xv c) 4 - xv c)).sum|
        ≤ (keys.map (fun c => |pyRound (xv c) 4 - xv c|)).sum := abs_sum_le_q _ _
      _ ≤ (keys.length : ℚ) * (1/20000) := hbound
      _ ≤ 6 * (1/20000) := by
          apply mul_le_mul_of_nonneg_right _ (by norm_num)
          exact_mod_cast hklen
      _ ≤ 1/1000 := by norm_num
  · -- avg ≤ peak
    have havg : (buildSession idx ticks).avg_load_score
        = pyRound ((ticks.map (fun t => t.load_score)).sum / (ticks.length : ℚ)) 4 := rfl
    have hpeak : (buildSession idx ticks).peak_load_score
        = pyRound (maxList (ticks.map (fun t => t.load_score))) 4 := rfl
    rw [havg, hpeak]
    apply pyRound_mono
    rw [div_le_iff₀ htotQ]
    have hlen : (ticks.map (fun t => t.load_score)).length = ticks.length :=
      List.length_map _ _
    have := List.sum_le_card_nsmul (ticks.map (fun t => t.load_score))
      (maxList (ticks.map (fun t => t.load_score)))
      (fun x hx => maxList_ge x hx)
    rw [hlen, nsmul_eq_mul] at this
    linarith [this]
  · -- avg ≥ 0
    have havg : (buildSession idx ticks).avg_load_score
        = pyRound ((ticks.map (fun t => t.load_score)).sum / (ticks.length : ℚ)) 4 := rfl
    rw [havg]
    apply pyRound_nonneg
    apply div_nonneg _ (le_of_lt htotQ)
    apply List.sum_nonneg
    intro x hx
    obtain ⟨t, ht, rfl⟩ := List.mem_map.mp hx
    exact hsc t ht
  · -- duration ≥ 0
    have hdur : (buildSession idx ticks).duration_minutes
        = pyRound ((lastTs ticks - firstTs ticks) / 60) 2 := rfl
    rw [hdur]
    apply pyRound_nonneg
    apply div_nonneg _ (by norm_num)
    have := firstTs_le_lastTs ticks hne hsorted
    linarith
  · -- single tick
    intro t hticks
    have hdur : (buildSession idx ticks).duration_minutes
        = pyRound ((lastTs ticks - firstTs ticks) / 60) 2 := rfl
    rw [hdur, hticks]
    have h1 : lastTs [t] = t.timestamp := rfl
    have h2 : firstTs [t] = t.timestamp := rfl
    rw [h1, h2]
    rw [show (t.timestamp - t.timestamp) / 60 = 0 from by ring]
    exact pyRound_zero 2

/-- Witness for C5 on a one-tick run. -/
theorem C5_witness :
    |((buildSession 0 [tickW1]).context_distribution.map (fun p => p.2)).sum - 1|
        ≤ 1/1000 ∧
    (buildSession 0 [tickW1]).avg_load_score ≤ (buildSession 0 [tickW1]).peak_load_score ∧
    0 ≤ (buildSession 0 [tickW1]).avg_load_score ∧
    0 ≤ (buildSession 0 [tickW1]).duration_minutes ∧
    (∀ t : TimelineEntry, [tickW1] = [t] → (buildSession 0 [tickW1]).duration_minutes = 0) :=
  C5_session_invariants 0 [tickW1] (by simp)
    (by
      intro t ht
      have : t = tickW1 := by simpa using ht
      rw [this]
      simp [tickW1, contextValues])
    (by
      intro t ht
      have : t = tickW1 := by simpa using ht
      rw [this]
      norm_num [tickW1])
    (by simp)

/-!
Academic-domain classification
(src/engine/telemetry/sources/browser.py, `_is_academic_url`).  Hosts are
modelled as character lists.  Python `str.lstrip("www.")` removes leading
characters drawn from the SET {'w', '.'} — not the prefix "www." — which
is where the code diverges from the documented rule.
-/

/-- The `_ACADEMIC_DOMAINS` allow-list.  Python iterates a set, but `any`
makes the iteration order irrelevant. -/
def academicDomains : List String :=
  ["scholar.google.com", "arxiv.org", "pubmed.ncbi.nlm.nih.gov",
   "jstor.org", "semanticscholar.org", "coursera.org", "edx.org",
   "khanacademy.org", "stackoverflow.com", "docs.python.org",
   "developer.mozilla.org"]

/-- The characters after the first "//" of a URL. -/
def afterDoubleSlash : List Char → List Char
  | '/' :: '/' :: rest => rest
  | _ :: rest => afterDoubleSlash rest
  | [] => []

/-- `urlparse(url).netloc` for the simple absolute URLs at issue:
everything after "//" up to the next `/`, `?` or `#`. -/
def netlocChars (url : List Char) : List Char :=
  (afterDoubleSlash url).takeWhile (fun c => !(c == '/' || c == '?' || c == '#'))

/-- `_is_academic_url` as written: lowercase the host, `lstrip("www.")`
(drop leading characters in {'w', '.'}), then match an allow-listed
domain exactly or as a dot-suffix. -/
def isAcademicUrlCode (url : String) : Bool :=
  let host := ((netlocChars url.toList).map Char.toLower).dropWhile
    (fun c => c == 'w' || c == '.')
  academicDomains.any (fun d => host == d.toList || ('.' :: d.toList).isSuffixOf host)

/-- Modelled from the spec: the documented rule lowercases the host,
ignores one optional leading "www." PREFIX, and classifies as academic
exactly when the result equals an allow-listed domain or ends with `.`
followed by one. -/
def isAcademicHostSpec (host : List Char) : Bool :=
  let h := host.map Char.toLower
  let h2 := if h.take 4 = "www.".toList then h.drop 4 else h
  academicDomains.any (fun d => h2 == d.toList || ('.' :: d.toList).isSuffixOf h2)

/-- C9: the code contradicts the documented prefix rule.  For the URL
`http://warxiv.org/abs/1` the host is `warxiv.org`; `lstrip("www.")`
strips the leading `w` (a member of the character set), producing
`arxiv.org`, so the code classifies the URL as academic, while the
spec's prefix rule classifies the host as non-academic.  On hosts where
`www.` really is a prefix (e.g. `www.arxiv.org`) the two agree. -/
theorem C9_lstrip_char_set_bug :
    netlocChars "http://warxiv.org/abs/1".toList = "warxiv.org".toList ∧
    isAcademicUrlCode "http://warxiv.org/abs/1" = true ∧
    isAcademicHostSpec "warxiv.org".toList = false ∧
    isAcademicUrlCode "http://www.arxiv.org/abs/1" = true ∧
    isAcademicHostSpec "www.arxiv.org".toList = true := by
  refine ⟨by decide, by decide, by decide, by decide, by decide⟩
